import Mathlib

set_option maxRecDepth 40000

/-!
Verification of the PyMassSpec peak-detection and alignment pipeline
(pyms-minerva).  The repository ships only documentation; the Python
modules themselves (pyms.Peak.Class, pyms.IntensityMatrix,
pyms.BillerBiemann, pyms.Noise.Analysis, pyms.Peak.Function,
pyms.Experiment, pyms.DPA.Alignment) are not in the tree, so every
definition below is modelled from the specification and from the executed
example outputs recorded in the repository documentation
(doc-source/demo_rst and UserGuide).  Numbers are rationals; the matrix
is a list of scan rows; mutation becomes explicit state passing.
-/

namespace PyMS

/-- A mass spectrum: the list of (mass, intensity) pairs at one scan.
Modelled from the spec: pyms.Spectrum.MassSpectrum keeps two parallel
lists (mass_list, intensity_list); we keep them zipped. -/
abbrev MassSpectrum := List (ℚ × ℚ)

/-- Index of the first maximal element of a list of rationals
(ties resolved toward the earliest index). -/
def idxMax : List ℚ → ℕ
  | [] => 0
  | [_] => 0
  | x :: y :: xs =>
      let j := idxMax (y :: xs)
      if x < (y :: xs).getD j 0 then j + 1 else 0

/-- Format a rational to exactly two decimal places, as Python str
formatting with .2f renders retention times in the UID. -/
def fmt2 (q : ℚ) : String :=
  let n : ℤ := round (100 * q)
  let whole := n / 100
  let frac := (n % 100).toNat
  toString whole ++ "." ++ (if frac < 10 then ("0" ++ toString frac) else toString frac)

/-- The (mass, intensity) pair of the most abundant ion of a spectrum:
the pair at the first index of maximal intensity. -/
def topPair1 (ms : MassSpectrum) : ℚ × ℚ :=
  ms.getD (idxMax (ms.map Prod.snd)) (0, 0)

/-- The spectrum with its most abundant ion removed; its own most
abundant ion is the second most abundant ion of the original. -/
def restSpec (ms : MassSpectrum) : MassSpectrum :=
  ms.eraseIdx (idxMax (ms.map Prod.snd))

/-- Modelled from the spec: pyms.Peak.Class.Peak.make_UID is not in src/.
The UID string is Mass1-Mass2-R-RT where Mass1 is the mass of the most
abundant ion, Mass2 the mass of the second most abundant ion, R the
second intensity as an integer percentage of the first, and RT the
stored retention time (always seconds) to two decimal places.  The
ratio direction and the seconds unit are fixed by the executed examples
in doc-source/demo_rst/Peak.rst: a Peak built with minutes=True at
31.17 minutes has UID 319-73-74-1870.20 (ratio 74 < 100, time 1870.20 s). -/
def make_UID (rt : ℚ) (ms : MassSpectrum) : String :=
  let p1 := topPair1 ms
  let p2 := topPair1 (restSpec ms)
  let r : ℤ := round (100 * p2.2 / p1.2)
  toString ⌊p1.1⌋ ++ "-" ++ toString ⌊p2.1⌋ ++ "-" ++ toString r ++ "-" ++ fmt2 rt

/-- A chromatographic peak.  Modelled from the spec: retention time is
stored internally in seconds; the UID field is recomputed by every
operation that changes the mass spectrum; area and per-ion areas are
optional extras added by the area estimator. -/
structure Peak where
  rt : ℚ
  mass_spectrum : MassSpectrum
  uid : String
  area : Option ℚ := none
  ion_areas : List (ℚ × ℚ) := []
  deriving DecidableEq, Repr

/-- Modelled from the spec: the Peak constructor.  A retention time given
in minutes (minutes = true) is converted to seconds on construction, and
the UID is derived from the stored (seconds) retention time and the
spectrum. -/
def mkPeak (rt : ℚ) (ms : MassSpectrum) (minutes : Bool) : Peak :=
  let rtSec := if minutes then 60 * rt else rt
  { rt := rtSec, mass_spectrum := ms, uid := make_UID rtSec ms }

/-- Modelled from the spec: Peak.crop_mass restricts the stored spectrum
to masses inside the inclusive range and recomputes the UID. -/
def Peak.crop_mass (p : Peak) (lo hi : ℚ) : Peak :=
  let ms := p.mass_spectrum.filter (fun mi => decide (lo ≤ mi.1) && decide (mi.1 ≤ hi))
  { p with mass_spectrum := ms, uid := make_UID p.rt ms }

/-- Modelled from the spec: Peak.null_mass zeroes the intensity of one
mass in the stored spectrum and recomputes the UID. -/
def Peak.null_mass (p : Peak) (m : ℚ) : Peak :=
  let ms := p.mass_spectrum.map (fun mi => if mi.1 = m then (mi.1, (0 : ℚ)) else mi)
  { p with mass_spectrum := ms, uid := make_UID p.rt ms }

/-- Modelled from the spec: assigning Peak.mass_spectrum replaces the
spectrum and recomputes the UID. -/
def Peak.set_mass_spectrum (p : Peak) (ms : MassSpectrum) : Peak :=
  { p with mass_spectrum := ms, uid := make_UID p.rt ms }

/-- Modelled from the spec: Peak.set_ion_areas records the per-ion area
mapping on the peak. -/
def Peak.set_ion_areas (p : Peak) (ias : List (ℚ × ℚ)) : Peak :=
  { p with ion_areas := ias }

/-- Modelled from the spec: Peak.get_ion_area returns the recorded area
of one ion, or none when that ion's area was never set. -/
def Peak.get_ion_area (p : Peak) (m : ℚ) : Option ℚ :=
  (p.ion_areas.find? (fun ma => decide (ma.1 = m))).map Prod.snd

/-- The invariant maintained by every Peak operation: the stored UID is
the pure function of the current retention time and mass spectrum. -/
def uidInv (p : Peak) : Prop := p.uid = make_UID p.rt p.mass_spectrum

/-- A definition following claim C1's words, for comparison with the
modelled behaviour: the ratio as round(intensity1/intensity2 as a
percentage) with intensity1 the most abundant, and the retention time
rendered in the unit the Peak was constructed with. -/
def claimC1_UID (rtGiven : ℚ) (ms : MassSpectrum) : String :=
  let p1 := topPair1 ms
  let p2 := topPair1 (restSpec ms)
  let r : ℤ := round (100 * p1.2 / p2.2)
  toString ⌊p1.1⌋ ++ "-" ++ toString ⌊p2.1⌋ ++ "-" ++ toString r ++ "-" ++ fmt2 rtGiven

/-- Maximum intensity in a spectrum (0 for an empty spectrum). -/
def maxIntensity (ms : MassSpectrum) : ℚ :=
  (ms.map Prod.snd).foldr max 0

/-- Modelled from the spec: pyms.BillerBiemann.rel_threshold removes from
each peak's stored spectrum every ion whose intensity is below the given
percentage of that peak's maximum intensity; the peak list itself keeps
all its peaks. -/
def relThresholdPeak (percent : ℚ) (p : Peak) : Peak :=
  p.set_mass_spectrum
    (p.mass_spectrum.filter
      (fun mi => decide (percent / 100 * maxIntensity p.mass_spectrum ≤ mi.2)))

/-- Modelled from the spec: rel_threshold applied to a peak list. -/
def rel_threshold (pl : List Peak) (percent : ℚ) : List Peak :=
  pl.map (relThresholdPeak percent)

/-- Modelled from the spec: pyms.BillerBiemann.num_ions_threshold keeps
exactly the peaks having at least n ions with intensity at or above the
cutoff, without mutating the retained peaks. -/
def num_ions_threshold (pl : List Peak) (n : ℕ) (cutoff : ℚ) : List Peak :=
  pl.filter
    (fun p => decide (n ≤ (p.mass_spectrum.filter (fun mi => decide (cutoff ≤ mi.2))).length))

/-- A time string NUMBERs or NUMBERm.  Modelled from the spec: the time
string mechanism of UserGuide/30_data_filtering (a number suffixed with
s for seconds or m for minutes). -/
inductive TimeStr
  | sec (q : ℚ)
  | min (q : ℚ)
  deriving DecidableEq, Repr

/-- Value of a time string in seconds. -/
def TimeStr.toSec : TimeStr → ℚ
  | .sec q => q
  | .min q => 60 * q

/-- Modelled from the spec: pyms.Experiment.Experiment owns a name and an
ordered peak list. -/
structure Experiment where
  expr_code : String
  peak_list : List Peak
  deriving DecidableEq, Repr

/-- Modelled from the spec: Experiment.sele_rt_range restricts the
experiment's own peak list to the peaks whose retention times lie in the
given range, in place; like the Python method it returns no value (the
second component, always none, is the method's return). -/
def Experiment.sele_rt_range (e : Experiment) (rng : TimeStr × TimeStr) :
    Experiment × Option (List Peak) :=
  let lo := rng.1.toSec
  let hi := rng.2.toSec
  (⟨e.expr_code,
    e.peak_list.filter (fun p => decide (lo ≤ p.rt) && decide (p.rt ≤ hi))⟩, none)

/-- A raw GC-MS scan: a retention time (seconds) with its parallel
(mass, intensity) readings, kept zipped. -/
structure Scan where
  rt : ℚ
  pairs : List (ℚ × ℚ)
  deriving DecidableEq, Repr

/-- All raw masses observed across a sequence of scans. -/
def allMasses (scans : List Scan) : List ℚ :=
  (scans.map (fun s => s.pairs.map Prod.fst)).flatten

/-- Minimum of a list of rationals (0 for the empty list). -/
def listMin : List ℚ → ℚ
  | [] => 0
  | x :: xs => xs.foldl min x

/-- Maximum of a list of rationals (0 for the empty list). -/
def listMax : List ℚ → ℚ
  | [] => 0
  | x :: xs => xs.foldl max x

/-- Modelled from the spec: the bin count of the intensity-matrix
builder (pyms.IntensityMatrix is not in src/).  The executed sizes in
UserGuide/gcms_data_derived_objects.rst — 551 bins for masses 50 to 600
at width 1 and 1101 bins at width 0.5 — fix the count as
floor((max − min) / width) + 1. -/
def numBins (mn mx w : ℚ) : ℕ :=
  (⌊(mx - mn) / w⌋).toNat + 1

/-- Modelled from the spec: the bin a raw mass is assigned to.  Bin j is
centred at min_mass + j·w; a mass m lands in bin
floor((m + lower − min_mass) / w), which realises the documented
membership rule c − lower ≤ m < c + upper whenever lower + upper = w
(true of both documented modes, ±0.5 and −0.3/+0.7). -/
def binIndex (mn w lower m : ℚ) : ℤ :=
  ⌊(m + lower - mn) / w⌋

/-- One matrix row: for each bin, the sum of the intensities of the
scan's readings assigned to that bin. -/
def scanRow (mn w lower : ℚ) (nb : ℕ) (s : Scan) : List ℚ :=
  (List.range nb).map (fun (j : ℕ) =>
    ((s.pairs.filter (fun p => decide (binIndex mn w lower p.1 = (j : ℤ)))).map Prod.snd).sum)

/-- The dense intensity matrix: one row per scan, one column per mass
bin, with the bin-centre masses and scan times alongside. -/
structure IntensityMatrix where
  time_list : List ℚ
  mass_list : List ℚ
  matrix : List (List ℚ)
  deriving DecidableEq, Repr

/-- Modelled from the spec: pyms.IntensityMatrix.build_intensity_matrix.
Bins start centred at the minimum observed mass; per scan and bin,
intensities of the masses assigned to the bin are summed.  The upper
boundary parameter is retained from the interface; assignment is by the
left boundary, which agrees with the membership rule exactly when
lower + upper equals the bin width. -/
def build_intensity_matrix (scans : List Scan) (w lower _upper : ℚ) : IntensityMatrix :=
  let mn := listMin (allMasses scans)
  let mx := listMax (allMasses scans)
  let nb := numBins mn mx w
  { time_list := scans.map Scan.rt
    mass_list := (List.range nb).map (fun (i : ℕ) => mn + (i : ℚ) * w)
    matrix := scans.map (scanRow mn w lower nb) }

/-- Consecutive non-overlapping windows of the given size over a
chromatogram (the final window may be shorter). -/
def chunks (size : ℕ) : List ℚ → List (List ℚ)
  | [] => []
  | x :: xs => (x :: xs.take (size - 1)) :: chunks size (xs.drop (size - 1))
termination_by l => l.length
decreasing_by
  simp [List.length_drop]
  omega

/-- The trough (local minimum) of each window. -/
def troughs (size : ℕ) (ic : List ℚ) : List ℚ :=
  (chunks size ic).map listMin

/-- Insertion into a sorted list of rationals. -/
def insertSorted (x : ℚ) : List ℚ → List ℚ
  | [] => [x]
  | y :: ys => if x ≤ y then x :: y :: ys else y :: insertSorted x ys

/-- Insertion sort of a list of rationals. -/
def sortQ (l : List ℚ) : List ℚ :=
  l.foldr insertSorted []

/-- Median of a list of rationals: middle element of the sorted list for
odd length, mean of the two middle elements for even length. -/
def median (l : List ℚ) : ℚ :=
  let s := sortQ l
  if l.length % 2 = 1 then s.getD (l.length / 2) 0
  else (s.getD (l.length / 2 - 1) 0 + s.getD (l.length / 2) 0) / 2

/-- Median absolute deviation about the median. -/
def mad (l : List ℚ) : ℚ :=
  median (l.map (fun x => |x - median l|))

/-- Modelled from the spec: the constant factor scaling the MAD to
approximate a robust standard deviation. -/
def madScale : ℚ := 14826 / 10000

/-- Modelled from the spec: pyms.Noise.Analysis.window_analyzer is not in
src/.  The chromatogram is split into non-overlapping windows, the
trough of each window is collected, and the scaled median absolute
deviation of the troughs is the noise threshold; with fewer than 2
windows the function fails with a descriptive error instead of
returning a degenerate value. -/
def window_analyzer (size : ℕ) (ic : List ℚ) : Except String ℚ :=
  let ts := troughs size ic
  if ts.length < 2 then
    Except.error ("window analyzer requires at least 2 windows with troughs")
  else
    Except.ok (madScale * mad ts)

/-- First-maximum fold: the element of x :: l whose key is maximal,
keeping the earliest such element. -/
def bestBy {α κ : Type} [LinearOrder κ] (f : α → κ) (x : α) : List α → α
  | [] => x
  | y :: l => bestBy f (if f x < f y then y else x) l

/-- One aligned-peak column: one slot (peak or gap) per experiment. -/
abbrev Column := List (Option Peak)

/-- The non-gap peaks of a column. -/
def colPeaks (col : Column) : List Peak :=
  col.filterMap id

/-- The candidate masses of a column: every mass with a recorded ion
area in some non-gap peak, deduplicated in first-appearance order. -/
def candMasses (col : Column) : List ℚ :=
  (((colPeaks col).map (fun p => p.ion_areas.map Prod.fst)).flatten).dedup

/-- In how many of the column's non-gap peaks a mass has a non-null
recorded area. -/
def countFor (col : Column) (m : ℚ) : ℕ :=
  ((colPeaks col).filter (fun p => (p.get_ion_area m).isSome)).length

/-- The recorded areas of one mass across the column's non-gap peaks. -/
def areasFor (col : Column) (m : ℚ) : List ℚ :=
  (colPeaks col).filterMap (fun p => p.get_ion_area m)

/-- Average recorded area of one mass across the peaks where it is
present. -/
def avgFor (col : Column) (m : ℚ) : ℚ :=
  (areasFor col m).sum / countFor col m

/-- Selection key of a candidate mass: presence count first, average
area second (lexicographic). -/
def ionKey (col : Column) (m : ℚ) : ℕ ×ₗ ℚ :=
  toLex (countFor col m, avgFor col m)

/-- The mass selected for one column: present in the greatest number of
the column's non-gap peaks, ties broken by greatest average area. -/
def bestIon (col : Column) : ℚ :=
  match candMasses col with
  | [] => 0
  | x :: l => bestBy (ionKey col) x l

/-- Modelled from the spec: pyms.DPA.Alignment.Alignment.common_ion is
not in src/.  One selected mass per aligned column, in column order. -/
def common_ion (algn : List Column) : List ℚ :=
  algn.map bestIon

/-- Median of three samples. -/
def med3 (a b c : ℚ) : ℚ :=
  max (min a b) (min (max a b) c)

/-- The boundary value used at sample j of a walking direction: the
median of the three consecutive samples centred there (the sample
itself stands in for a missing neighbour at the end of the data). -/
def medAt (d : List ℚ) (j : ℕ) : ℚ :=
  med3 (d.getD (j - 1) 0) (d.getD j 0) (d.getD (j + 1) (d.getD j 0))

/-- The candidate steps of one walking direction, outward from the apex
(sample 0): for each later sample, its raw intensity (accumulated) and
its median-of-three boundary value (tested). -/
def halfPairs (d : List ℚ) : List (ℚ × ℚ) :=
  (List.range' 1 (d.length - 1)).map (fun (j : ℕ) => (d.getD j 0, medAt d j))

/-- The accumulation loop of one direction: starting from the running
total so far, add the next raw intensity unless its boundary value
either adds less than 0.5 percent of the accumulated area (200·m < acc)
or exceeds the current edge value. -/
def walkAux (edge acc : ℚ) : List (ℚ × ℚ) → ℚ
  | [] => acc
  | (r, m) :: rest => if 200 * m < acc ∨ edge < m then acc else walkAux m (acc + r) rest

/-- Number of steps the accumulation loop accepts before stopping. -/
def stopLen (edge acc : ℚ) : List (ℚ × ℚ) → ℕ
  | [] => 0
  | (r, m) :: rest => if 200 * m < acc ∨ edge < m then 0 else stopLen m (acc + r) rest + 1

/-- Area accumulated by one walking direction, the apex sample
included. -/
def half_area (d : List ℚ) : ℚ :=
  walkAux (d.getD 0 0) (d.getD 0 0) (halfPairs d)

/-- The samples walked leftward in time from the apex. -/
def leftList (col : List ℚ) (apex : ℕ) : List ℚ :=
  (col.take (apex + 1)).reverse

/-- The samples walked rightward in time from the apex. -/
def rightList (col : List ℚ) (apex : ℕ) : List ℚ :=
  col.drop apex

/-- Modelled from the spec: pyms.Peak.Function.ion_area is not in src/.
The per-ion area walks outward from the apex in both directions,
accumulating intensity until a stopping condition holds; the apex
sample, included by both walks, is subtracted once. -/
def ion_area (col : List ℚ) (apex : ℕ) : ℚ :=
  half_area (leftList col apex) + half_area (rightList col apex) - col.getD apex 0

/-- The stopping condition at step j of the loop over a pair list: the
boundary value would add less than 0.5 percent of the area accumulated
through the first j steps, or it exceeds the previous boundary value
(the initial edge for j = 0). -/
def pairViolate (edge acc : ℚ) (l : List (ℚ × ℚ)) (j : ℕ) : Prop :=
  200 * (l.getD j (0, 0)).2 < acc + ((l.take j).map Prod.fst).sum ∨
    (if j = 0 then edge else (l.getD (j - 1) (0, 0)).2) < (l.getD j (0, 0)).2

/-- Declarative characterisation of one direction of the area walk: the
area is the apex sample plus the raw intensities of the accepted
prefix, no accepted step satisfied the stopping condition, and the
first unaccepted step (when the data does not run out) does. -/
def halfSpec (d : List ℚ) : Prop :=
  half_area d =
    d.getD 0 0 +
      (((halfPairs d).take (stopLen (d.getD 0 0) (d.getD 0 0) (halfPairs d))).map
        Prod.fst).sum ∧
  (∀ j, j < stopLen (d.getD 0 0) (d.getD 0 0) (halfPairs d) →
    ¬ pairViolate (d.getD 0 0) (d.getD 0 0) (halfPairs d) j) ∧
  (stopLen (d.getD 0 0) (d.getD 0 0) (halfPairs d) < (halfPairs d).length →
    pairViolate (d.getD 0 0) (d.getD 0 0) (halfPairs d)
      (stopLen (d.getD 0 0) (d.getD 0 0) (halfPairs d)))

/-- Local-maximum test: scan index i is an apex for an ion chromatogram
when its intensity strictly exceeds every other intensity within the
centred window of the given width in points. -/
def isLocalMax (col : List ℚ) (points i : ℕ) : Bool :=
  decide (∀ j, j < col.length → j ≠ i → i ≤ j + points / 2 → j ≤ i + points / 2 →
    col.getD j 0 < col.getD i 0)

/-- The ion chromatogram of one mass-bin column of the matrix. -/
def column (im : IntensityMatrix) (c : ℕ) : List ℚ :=
  im.matrix.map (fun row => row.getD c 0)

/-- The ions (column indices) apexing at a scan. -/
def ionsApexingAt (im : IntensityMatrix) (points r : ℕ) : List ℕ :=
  (List.range im.mass_list.length).filter (fun c => isLocalMax (column im c) points r)

/-- The candidate scans: those where at least one ion apexes. -/
def candidateScans (im : IntensityMatrix) (points : ℕ) : List ℕ :=
  (List.range im.matrix.length).filter (fun r => decide (ionsApexingAt im points r ≠ []))

/-- The candidate mass spectrum of a scan: its apexing ions with their
intensities there. -/
def candSpectrum (im : IntensityMatrix) (points r : ℕ) : MassSpectrum :=
  (ionsApexingAt im points r).map (fun c => (im.mass_list.getD c 0, (column im c).getD r 0))

/-- Summed (total ion) intensity of a candidate scan's apexing ions. -/
def sumIntensity (im : IntensityMatrix) (points r : ℕ) : ℚ :=
  ((candSpectrum im points r).map Prod.snd).sum

/-- Group an ascending list of candidate scans into neighbourhoods
spanning up to the given number of consecutive scan indices: each block
starts at the first remaining candidate and absorbs every candidate
less than that start plus the neighbourhood width. -/
def groupBlocks (scans : ℕ) : List ℕ → List (List ℕ)
  | [] => []
  | c :: rest =>
      (c :: rest.takeWhile (fun x => decide (x < c + scans))) ::
        groupBlocks scans (rest.dropWhile (fun x => decide (x < c + scans)))
termination_by l => l.length
decreasing_by
  have h := (List.dropWhile_sublist (fun x => decide (x < c + scans)) (l := rest)).length_le
  simp only [List.length_cons]
  omega

/-- The canonical apex of a neighbourhood block: the candidate scan of
greatest summed intensity, the earliest on a tie. -/
def blockApex (im : IntensityMatrix) (points : ℕ) (blk : List ℕ) : ℕ :=
  match blk with
  | [] => 0
  | x :: l => bestBy (sumIntensity im points) x l

/-- The peak emitted for one block: the merged spectrum of all apexing
ions of the neighbourhood, attributed to the canonical scan's retention
time. -/
def mkBlockPeak (im : IntensityMatrix) (points : ℕ) (blk : List ℕ) : Peak :=
  mkPeak (im.time_list.getD (blockApex im points blk) 0)
    ((blk.map (candSpectrum im points)).flatten) false

/-- Modelled from the spec: pyms.BillerBiemann.BillerBiemann is not in
src/.  Per ion, apexing scans are found with the points-wide local
maximum test; candidate scans are grouped into neighbourhoods of up to
the given number of scans; each neighbourhood emits one peak at its
canonical apex. -/
def BillerBiemann (im : IntensityMatrix) (points scans : ℕ) : List Peak :=
  (groupBlocks scans (candidateScans im points)).map (mkBlockPeak im points)

/-- A concrete 6-scan, 2-ion intensity matrix used to instantiate the
detector theorems. -/
def imEx : IntensityMatrix :=
  ⟨[0, 1, 2, 3, 4, 5], [50, 51],
    [[0, 0], [10, 0], [0, 5], [0, 0], [6, 7], [0, 0]]⟩

/-! ## Theorems -/

theorem idxMax_le (l : List ℚ) : ∀ x ∈ l, x ≤ l.getD (idxMax l) 0 := by
  induction l with
  | nil => intro x hx; cases hx
  | cons a t ih =>
    cases t with
    | nil =>
      intro x hx
      rw [List.mem_singleton] at hx
      subst hx
      simp [idxMax]
    | cons b t' =>
      intro x hx
      rw [idxMax]
      by_cases h : a < (b :: t').getD (idxMax (b :: t')) 0
      · rw [if_pos h]
        rcases List.mem_cons.mp hx with rfl | hx'
        · simpa using le_of_lt h
        · simpa using ih x hx'
      · rw [if_neg h]
        rcases List.mem_cons.mp hx with rfl | hx'
        · simp
        · have h1 := ih x hx'
          have h2 : (b :: t').getD (idxMax (b :: t')) 0 ≤ a := le_of_not_lt h
          simpa using h1.trans h2

theorem snd_getD (ms : MassSpectrum) (i : ℕ) :
    (ms.getD i (0, 0)).2 = (ms.map Prod.snd).getD i 0 := by
  induction ms generalizing i with
  | nil => simp
  | cons p t ih =>
    cases i with
    | zero => simp
    | succ n => simpa using ih n

theorem topPair1_max (ms : MassSpectrum) : ∀ q ∈ ms, q.2 ≤ (topPair1 ms).2 := by
  intro q hq
  have h1 : q.2 ∈ ms.map Prod.snd := List.mem_map_of_mem _ hq
  have h2 := idxMax_le (ms.map Prod.snd) q.2 h1
  rw [topPair1, snd_getD]
  exact h2

/-- C1 (amended): the UID of a Peak is the string
Mass1-Mass2-Ratio-RT where Mass1 is the mass of an ion of maximal
intensity, Mass2 the mass of an ion of maximal intensity once that ion
is removed, Ratio the second intensity as an integer percentage of the
first, and RT the stored retention time in seconds (a Peak constructed
with minutes = true has its input multiplied by 60) formatted to two
decimal places. -/
theorem uid_format (rt : ℚ) (ms : MassSpectrum) (b : Bool) :
    (∀ q ∈ ms, q.2 ≤ (topPair1 ms).2) ∧
    (∀ q ∈ restSpec ms, q.2 ≤ (topPair1 (restSpec ms)).2) ∧
    (mkPeak rt ms b).uid =
      toString ⌊(topPair1 ms).1⌋ ++ "-" ++ toString ⌊(topPair1 (restSpec ms)).1⌋ ++ "-" ++
        toString (round (100 * (topPair1 (restSpec ms)).2 / (topPair1 ms).2)) ++ "-" ++
        fmt2 (if b then 60 * rt else rt) := by
  refine ⟨topPair1_max ms, topPair1_max (restSpec ms), ?_⟩
  cases b <;> rfl

/-- C1 witness: the amended format theorem evaluated on the documented
example spectrum of doc-source/demo_rst/Peak.rst. -/
theorem uid_format_witness :
    (∀ q ∈ ([(55, 30), (73, 74), (147, 60), (205, 54), (319, 100)] : MassSpectrum),
        q.2 ≤ (topPair1 [(55, 30), (73, 74), (147, 60), (205, 54), (319, 100)]).2) ∧
    (∀ q ∈ restSpec [(55, 30), (73, 74), (147, 60), (205, 54), (319, 100)],
        q.2 ≤ (topPair1 (restSpec [(55, 30), (73, 74), (147, 60), (205, 54), (319, 100)])).2) ∧
    (mkPeak (3117 / 100) [(55, 30), (73, 74), (147, 60), (205, 54), (319, 100)] true).uid =
      toString ⌊(topPair1 ([(55, 30), (73, 74), (147, 60), (205, 54), (319, 100)] : MassSpectrum)).1⌋ ++
        "-" ++
        toString
          ⌊(topPair1 (restSpec [(55, 30), (73, 74), (147, 60), (205, 54), (319, 100)])).1⌋ ++
        "-" ++
        toString
          (round
            (100 * (topPair1 (restSpec [(55, 30), (73, 74), (147, 60), (205, 54), (319, 100)])).2 /
              (topPair1 ([(55, 30), (73, 74), (147, 60), (205, 54), (319, 100)] : MassSpectrum)).2)) ++
        "-" ++ fmt2 (if true then 60 * (3117 / 100) else 3117 / 100) :=
  uid_format (3117 / 100) [(55, 30), (73, 74), (147, 60), (205, 54), (319, 100)] true

/-- C1 counterexample: the Peak of doc-source/demo_rst/Peak.rst, built
with minutes = true at 31.17 minutes, has UID 319-73-74-1870.20 — the
retention time is rendered in seconds and the ratio is the second
intensity as a percentage of the first — whereas the claim's formula
(ratio = most abundant over second, retention time in the construction
unit) yields 319-73-135-31.17. -/
theorem uid_minutes_counterexample :
    (mkPeak (3117 / 100) [(55, 30), (73, 74), (147, 60), (205, 54), (319, 100)] true).uid =
      "319-73-74-1870.20" ∧
    claimC1_UID (3117 / 100) [(55, 30), (73, 74), (147, 60), (205, 54), (319, 100)] =
      "319-73-135-31.17" ∧
    (mkPeak (3117 / 100) [(55, 30), (73, 74), (147, 60), (205, 54), (319, 100)] true).uid ≠
      claimC1_UID (3117 / 100) [(55, 30), (73, 74), (147, 60), (205, 54), (319, 100)] :=
  of_decide_eq_true (by with_unfolding_all rfl)

/-- C2: the UID is a pure function of the retention time and the current
mass spectrum: the constructor and every spectrum mutation (crop_mass,
null_mass, spectrum replacement) leave the stored UID equal to
make_UID of the current state, and two peaks agreeing on retention time
and spectrum whose UIDs satisfy that invariant have equal UIDs. -/
theorem uid_determinism_and_mutation (rt m lo hi : ℚ) (ms msNew : MassSpectrum) (b : Bool)
    (p q : Peak) :
    uidInv (mkPeak rt ms b) ∧
    uidInv (p.crop_mass lo hi) ∧
    uidInv (p.null_mass m) ∧
    uidInv (p.set_mass_spectrum msNew) ∧
    (p.rt = q.rt → p.mass_spectrum = q.mass_spectrum → uidInv p → uidInv q → p.uid = q.uid) := by
  refine ⟨rfl, rfl, rfl, rfl, ?_⟩
  intro h1 h2 hp hq
  rw [hp, hq, h1, h2]

/-- C2 witness: the invariant evaluated on the documented example peak,
its crop and null mutations, and the determinism clause discharged on
two identically built peaks. -/
theorem uid_determinism_and_mutation_witness :
    uidInv (mkPeak (3117 / 100) [(55, 30), (73, 74), (147, 60), (205, 54), (319, 100)] true) ∧
    uidInv ((mkPeak 1 [(50, 10)] false).crop_mass 60 450) ∧
    uidInv ((mkPeak 1 [(50, 10)] false).null_mass 73) ∧
    uidInv ((mkPeak 1 [(50, 10)] false).set_mass_spectrum [(60, 20)]) ∧
    ((mkPeak 1 [(50, 10)] false).rt = (mkPeak 1 [(50, 10)] false).rt →
      (mkPeak 1 [(50, 10)] false).mass_spectrum = (mkPeak 1 [(50, 10)] false).mass_spectrum →
      uidInv (mkPeak 1 [(50, 10)] false) → uidInv (mkPeak 1 [(50, 10)] false) →
      (mkPeak 1 [(50, 10)] false).uid = (mkPeak 1 [(50, 10)] false).uid) :=
  uid_determinism_and_mutation (3117 / 100) 73 60 450
    [(55, 30), (73, 74), (147, 60), (205, 54), (319, 100)] [(60, 20)] true
    (mkPeak 1 [(50, 10)] false) (mkPeak 1 [(50, 10)] false)

/-- C5: rel_threshold returns a list of exactly the input's length and
changes only each peak's stored spectrum (retention time and area are
untouched), while num_ions_threshold returns a sublist of the input, so
its length never exceeds the input's. -/
theorem filter_list_lengths (pl : List Peak) (percent cutoff : ℚ) (n : ℕ) :
    (rel_threshold pl percent).length = pl.length ∧
    (∀ p : Peak, (relThresholdPeak percent p).rt = p.rt ∧
      (relThresholdPeak percent p).area = p.area) ∧
    (num_ions_threshold pl n cutoff).length ≤ pl.length ∧
    (∀ p ∈ num_ions_threshold pl n cutoff, p ∈ pl) := by
  refine ⟨List.length_map _ _, fun p => ⟨rfl, rfl⟩, List.length_filter_le _ _, ?_⟩
  intro p hp
  exact List.mem_of_mem_filter hp

/-- C5 witness: the filter length facts evaluated on a concrete
two-peak list. -/
theorem filter_list_lengths_witness :
    (rel_threshold [mkPeak 1 [(50, 10), (51, 1)] false, mkPeak 2 [(52, 5)] false] 20).length =
      [mkPeak 1 [(50, 10), (51, 1)] false, mkPeak 2 [(52, 5)] false].length ∧
    (∀ p : Peak, (relThresholdPeak 20 p).rt = p.rt ∧ (relThresholdPeak 20 p).area = p.area) ∧
    (num_ions_threshold [mkPeak 1 [(50, 10), (51, 1)] false, mkPeak 2 [(52, 5)] false] 2
          3).length ≤
      [mkPeak 1 [(50, 10), (51, 1)] false, mkPeak 2 [(52, 5)] false].length ∧
    (∀ p ∈ num_ions_threshold [mkPeak 1 [(50, 10), (51, 1)] false, mkPeak 2 [(52, 5)] false] 2 3,
        p ∈ [mkPeak 1 [(50, 10), (51, 1)] false, mkPeak 2 [(52, 5)] false]) :=
  filter_list_lengths [mkPeak 1 [(50, 10), (51, 1)] false, mkPeak 2 [(52, 5)] false] 20 3 2

/-- C10: sele_rt_range mutates the experiment's own peak list in place,
restricting it to the peaks whose retention times lie within the given
time-string range; the method returns no value (none, not a filtered
copy) and leaves the experiment's name unchanged. -/
theorem sele_rt_range_inplace (e : Experiment) (rng : TimeStr × TimeStr) :
    (e.sele_rt_range rng).2 = none ∧
    (e.sele_rt_range rng).1.expr_code = e.expr_code ∧
    (e.sele_rt_range rng).1.peak_list =
      e.peak_list.filter
        (fun p => decide (rng.1.toSec ≤ p.rt) && decide (p.rt ≤ rng.2.toSec)) ∧
    (∀ p ∈ (e.sele_rt_range rng).1.peak_list,
      p ∈ e.peak_list ∧ rng.1.toSec ≤ p.rt ∧ p.rt ≤ rng.2.toSec) ∧
    (∀ p ∈ e.peak_list, rng.1.toSec ≤ p.rt → p.rt ≤ rng.2.toSec →
      p ∈ (e.sele_rt_range rng).1.peak_list) := by
  refine ⟨rfl, rfl, rfl, ?_, ?_⟩
  · intro p hp
    obtain ⟨h1, h2⟩ := List.mem_filter.mp hp
    rw [Bool.and_eq_true, decide_eq_true_eq, decide_eq_true_eq] at h2
    exact ⟨h1, h2.1, h2.2⟩
  · intro p hp h1 h2
    refine List.mem_filter.mpr ⟨hp, ?_⟩
    rw [Bool.and_eq_true, decide_eq_true_eq, decide_eq_true_eq]
    exact ⟨h1, h2⟩

/-- C10 witness: sele_rt_range on a concrete experiment with the
documented range of 6.5 to 21 minutes. -/
theorem sele_rt_range_inplace_witness :
    ((⟨"a0806_077", [mkPeak 10 [] false, mkPeak 400 [] false]⟩ : Experiment).sele_rt_range
        (TimeStr.min (65 / 10), TimeStr.min 21)).2 = none ∧
    ((⟨"a0806_077", [mkPeak 10 [] false, mkPeak 400 [] false]⟩ : Experiment).sele_rt_range
          (TimeStr.min (65 / 10), TimeStr.min 21)).1.expr_code =
      (⟨"a0806_077", [mkPeak 10 [] false, mkPeak 400 [] false]⟩ : Experiment).expr_code ∧
    ((⟨"a0806_077", [mkPeak 10 [] false, mkPeak 400 [] false]⟩ : Experiment).sele_rt_range
          (TimeStr.min (65 / 10), TimeStr.min 21)).1.peak_list =
      (⟨"a0806_077", [mkPeak 10 [] false, mkPeak 400 [] false]⟩ : Experiment).peak_list.filter
        (fun p =>
          decide ((TimeStr.min (65 / 10), TimeStr.min 21).1.toSec ≤ p.rt) &&
            decide (p.rt ≤ (TimeStr.min (65 / 10), TimeStr.min 21).2.toSec)) ∧
    (∀ p ∈ ((⟨"a0806_077", [mkPeak 10 [] false, mkPeak 400 [] false]⟩ :
            Experiment).sele_rt_range (TimeStr.min (65 / 10), TimeStr.min 21)).1.peak_list,
      p ∈ (⟨"a0806_077", [mkPeak 10 [] false, mkPeak 400 [] false]⟩ : Experiment).peak_list ∧
        (TimeStr.min (65 / 10), TimeStr.min 21).1.toSec ≤ p.rt ∧
        p.rt ≤ (TimeStr.min (65 / 10), TimeStr.min 21).2.toSec) ∧
    (∀ p ∈ (⟨"a0806_077", [mkPeak 10 [] false, mkPeak 400 [] false]⟩ : Experiment).peak_list,
      (TimeStr.min (65 / 10), TimeStr.min 21).1.toSec ≤ p.rt →
      p.rt ≤ (TimeStr.min (65 / 10), TimeStr.min 21).2.toSec →
      p ∈ ((⟨"a0806_077", [mkPeak 10 [] false, mkPeak 400 [] false]⟩ :
            Experiment).sele_rt_range (TimeStr.min (65 / 10), TimeStr.min 21)).1.peak_list) :=
  sele_rt_range_inplace ⟨"a0806_077", [mkPeak 10 [] false, mkPeak 400 [] false]⟩
    (TimeStr.min (65 / 10), TimeStr.min 21)

theorem build_mass_list (scans : List Scan) (w lower upper : ℚ) :
    (build_intensity_matrix scans w lower upper).mass_list =
      (List.range (numBins (listMin (allMasses scans)) (listMax (allMasses scans)) w)).map
        (fun (i : ℕ) => listMin (allMasses scans) + i * w) := rfl

/-- C3 (amended): with bin width w and offsets (lower, upper) satisfying
lower + upper = w (both documented modes), a raw mass m is assigned to
the bin with centre c = min + j·w iff c − lower ≤ m < c + upper; the
first bin is centred at the minimum observed mass; and the number of
bins is floor((max − min)/w) + 1. -/
theorem binning_rule (scans : List Scan) (w lower upper : ℚ) (hw : 0 < w)
    (hlu : lower + upper = w) :
    (∀ m : ℚ, ∀ j : ℤ,
      binIndex (listMin (allMasses scans)) w lower m = j ↔
        listMin (allMasses scans) + j * w - lower ≤ m ∧
          m < listMin (allMasses scans) + j * w + upper) ∧
    (build_intensity_matrix scans w lower upper).mass_list.getD 0 0 =
      listMin (allMasses scans) ∧
    (build_intensity_matrix scans w lower upper).mass_list.length =
      (⌊(listMax (allMasses scans) - listMin (allMasses scans)) / w⌋).toNat + 1 := by
  refine ⟨?_, ?_, ?_⟩
  · intro m j
    rw [binIndex, Int.floor_eq_iff, le_div_iff₀ hw, div_lt_iff₀ hw]
    constructor
    · rintro ⟨h1, h2⟩
      constructor <;> nlinarith
    · rintro ⟨h1, h2⟩
      constructor <;> nlinarith
  · rw [build_mass_list, numBins, List.range_succ_eq_map]
    simp
  · rw [build_mass_list, List.length_map, List.length_range, numBins]

/-- C3 witness: the bin rule instantiated on a one-scan input with the
default configuration (width 1, boundaries plus and minus one half). -/
theorem binning_rule_witness :
    (∀ m : ℚ, ∀ j : ℤ,
      binIndex (listMin (allMasses [⟨0, [(50, 1), (600, 2)]⟩])) 1 (1 / 2) m = j ↔
        listMin (allMasses [⟨0, [(50, 1), (600, 2)]⟩]) + j * 1 - 1 / 2 ≤ m ∧
          m < listMin (allMasses [⟨0, [(50, 1), (600, 2)]⟩]) + j * 1 + 1 / 2) ∧
    (build_intensity_matrix [⟨0, [(50, 1), (600, 2)]⟩] 1 (1 / 2) (1 / 2)).mass_list.getD 0 0 =
      listMin (allMasses [⟨0, [(50, 1), (600, 2)]⟩]) ∧
    (build_intensity_matrix [⟨0, [(50, 1), (600, 2)]⟩] 1 (1 / 2) (1 / 2)).mass_list.length =
      (⌊(listMax (allMasses [⟨0, [(50, 1), (600, 2)]⟩]) -
          listMin (allMasses [⟨0, [(50, 1), (600, 2)]⟩])) / 1⌋).toNat + 1 :=
  binning_rule [⟨0, [(50, 1), (600, 2)]⟩] 1 (1 / 2) (1 / 2) (by norm_num) (by norm_num)

/-- C3 counterexample: for the documented mass range 50 to 600 at bin
width 1 the builder produces 551 bins (the documented size), while the
claim's rounded-up count (600 − 50)/1 gives 550. -/
theorem bin_count_counterexample :
    (build_intensity_matrix [⟨0, [(50, 1), (600, 2)]⟩] 1 (1 / 2) (1 / 2)).mass_list.length =
      551 ∧
    (⌈(listMax (allMasses [⟨0, [(50, 1), (600, 2)]⟩]) -
        listMin (allMasses [⟨0, [(50, 1), (600, 2)]⟩])) / 1⌉ : ℤ) = 550 ∧
    ((build_intensity_matrix [⟨0, [(50, 1), (600, 2)]⟩] 1 (1 / 2)
        (1 / 2)).mass_list.length : ℤ) ≠
      (⌈(listMax (allMasses [⟨0, [(50, 1), (600, 2)]⟩]) -
          listMin (allMasses [⟨0, [(50, 1), (600, 2)]⟩])) / 1⌉ : ℤ) :=
  of_decide_eq_true (by with_unfolding_all rfl)

theorem sum_map_ite_range (nb : ℕ) (c : ℤ) (x : ℚ) :
    ((List.range nb).map (fun (j : ℕ) => if c = (j : ℤ) then x else 0)).sum =
      if 0 ≤ c ∧ c < (nb : ℤ) then x else 0 := by
  induction nb with
  | zero =>
    simp only [List.range_zero, List.map_nil, List.sum_nil]
    rw [if_neg]
    omega
  | succ n ih =>
    rw [List.range_succ, List.map_append, List.sum_append]
    simp only [List.map_cons, List.map_nil, List.sum_cons, List.sum_nil, ih]
    by_cases hc : c = (n : ℤ)
    · rw [if_neg (by omega), if_pos hc, if_pos (by omega)]
      ring
    · rw [if_neg hc]
      by_cases h0 : 0 ≤ c ∧ c < (n : ℤ)
      · rw [if_pos h0, if_pos (by omega)]
        ring
      · rw [if_neg h0, if_neg (by omega)]
        ring

theorem sum_map_split (L : List ℕ) (f g : ℕ → ℚ) :
    (L.map (fun j => f j + g j)).sum = (L.map f).sum + (L.map g).sum := by
  induction L with
  | nil => simp
  | cons a l ih =>
    simp only [List.map_cons, List.sum_cons, ih]
    ring

theorem scanRow_sum (mn w lower : ℚ) (nb : ℕ) (ps : List (ℚ × ℚ))
    (h : ∀ p ∈ ps, 0 ≤ binIndex mn w lower p.1 ∧ binIndex mn w lower p.1 < (nb : ℤ)) :
    ((List.range nb).map (fun (j : ℕ) =>
      ((ps.filter (fun p => decide (binIndex mn w lower p.1 = (j : ℤ)))).map Prod.snd).sum)).sum =
      (ps.map Prod.snd).sum := by
  induction ps with
  | nil => simp
  | cons p t ih =>
    have hsplit : ∀ j : ℕ,
        (((p :: t).filter (fun q => decide (binIndex mn w lower q.1 = (j : ℤ)))).map
          Prod.snd).sum =
        (if binIndex mn w lower p.1 = (j : ℤ) then p.2 else 0) +
          ((t.filter (fun q => decide (binIndex mn w lower q.1 = (j : ℤ)))).map Prod.snd).sum := by
      intro j
      by_cases hj : binIndex mn w lower p.1 = (j : ℤ)
      · rw [if_pos hj]
        rw [List.filter_cons, if_pos (by simpa using hj)]
        simp
      · rw [if_neg hj]
        rw [List.filter_cons, if_neg (by simpa using hj)]
        ring
    rw [List.map_congr_left (fun j _ => hsplit j), sum_map_split, sum_map_ite_range]
    have hp := h p (List.mem_cons_self p t)
    rw [if_pos ⟨hp.1, hp.2⟩, ih (fun q hq => h q (List.mem_cons_of_mem p hq))]
    simp

/-- C4: provided every reading of a scan is assigned to a bin index
inside the matrix (the bins cover the scan's mass range), the sum of
that scan's row of the built intensity matrix equals the sum of the
scan's raw intensities: each (mass, intensity) pair lands in exactly
one bin and intensities sharing a bin are summed. -/
theorem binning_conservation (scans : List Scan) (w lower upper : ℚ) (s : Scan)
    (hcov : ∀ p ∈ s.pairs,
      0 ≤ binIndex (listMin (allMasses scans)) w lower p.1 ∧
        binIndex (listMin (allMasses scans)) w lower p.1 <
          (numBins (listMin (allMasses scans)) (listMax (allMasses scans)) w : ℤ)) :
    (build_intensity_matrix scans w lower upper).matrix =
      scans.map (scanRow (listMin (allMasses scans)) w lower
        (numBins (listMin (allMasses scans)) (listMax (allMasses scans)) w)) ∧
    (scanRow (listMin (allMasses scans)) w lower
        (numBins (listMin (allMasses scans)) (listMax (allMasses scans)) w) s).sum =
      (s.pairs.map Prod.snd).sum := by
  refine ⟨rfl, ?_⟩
  exact scanRow_sum _ _ _ _ _ hcov

/-- C4 witness: conservation on a concrete two-scan input whose masses
all fall inside the built bins. -/
theorem binning_conservation_witness :
    (∀ p ∈ (⟨1, [(503 / 10, 30)]⟩ : Scan).pairs,
      0 ≤ binIndex (listMin (allMasses
            [⟨0, [(501 / 10, 100), (505 / 10, 50)]⟩, ⟨1, [(503 / 10, 30)]⟩])) 1 (1 / 2) p.1 ∧
        binIndex (listMin (allMasses
            [⟨0, [(501 / 10, 100), (505 / 10, 50)]⟩, ⟨1, [(503 / 10, 30)]⟩])) 1 (1 / 2) p.1 <
          (numBins
            (listMin (allMasses
              [⟨0, [(501 / 10, 100), (505 / 10, 50)]⟩, ⟨1, [(503 / 10, 30)]⟩]))
            (listMax (allMasses
              [⟨0, [(501 / 10, 100), (505 / 10, 50)]⟩, ⟨1, [(503 / 10, 30)]⟩])) 1 : ℤ)) ∧
    (build_intensity_matrix [⟨0, [(501 / 10, 100), (505 / 10, 50)]⟩, ⟨1, [(503 / 10, 30)]⟩] 1
        (1 / 2) (1 / 2)).matrix =
      [⟨0, [(501 / 10, 100), (505 / 10, 50)]⟩, ⟨1, [(503 / 10, 30)]⟩].map
        (scanRow (listMin (allMasses
            [⟨0, [(501 / 10, 100), (505 / 10, 50)]⟩, ⟨1, [(503 / 10, 30)]⟩])) 1 (1 / 2)
          (numBins
            (listMin (allMasses
              [⟨0, [(501 / 10, 100), (505 / 10, 50)]⟩, ⟨1, [(503 / 10, 30)]⟩]))
            (listMax (allMasses
              [⟨0, [(501 / 10, 100), (505 / 10, 50)]⟩, ⟨1, [(503 / 10, 30)]⟩])) 1)) ∧
    (scanRow (listMin (allMasses
        [⟨0, [(501 / 10, 100), (505 / 10, 50)]⟩, ⟨1, [(503 / 10, 30)]⟩])) 1 (1 / 2)
      (numBins
        (listMin (allMasses
          [⟨0, [(501 / 10, 100), (505 / 10, 50)]⟩, ⟨1, [(503 / 10, 30)]⟩]))
        (listMax (allMasses
          [⟨0, [(501 / 10, 100), (505 / 10, 50)]⟩, ⟨1, [(503 / 10, 30)]⟩])) 1)
      ⟨1, [(503 / 10, 30)]⟩).sum =
      ((⟨1, [(503 / 10, 30)]⟩ : Scan).pairs.map Prod.snd).sum :=
  ⟨of_decide_eq_true (by with_unfolding_all rfl),
    binning_conservation [⟨0, [(501 / 10, 100), (505 / 10, 50)]⟩, ⟨1, [(503 / 10, 30)]⟩] 1
      (1 / 2) (1 / 2) ⟨1, [(503 / 10, 30)]⟩
      (of_decide_eq_true (by with_unfolding_all rfl))⟩

theorem mem_of_insertSorted (x z : ℚ) (l : List ℚ) (h : z ∈ insertSorted x l) :
    z = x ∨ z ∈ l := by
  induction l with
  | nil =>
    rw [insertSorted, List.mem_singleton] at h
    exact Or.inl h
  | cons y ys ih =>
    rw [insertSorted] at h
    by_cases hxy : x ≤ y
    · rw [if_pos hxy] at h
      rcases List.mem_cons.mp h with rfl | h2
      · exact Or.inl rfl
      · exact Or.inr h2
    · rw [if_neg hxy] at h
      rcases List.mem_cons.mp h with rfl | h2
      · exact Or.inr (List.mem_cons_self _ _)
      · rcases ih h2 with rfl | h3
        · exact Or.inl rfl
        · exact Or.inr (List.mem_cons_of_mem _ h3)

theorem mem_of_sortQ (z : ℚ) (l : List ℚ) (h : z ∈ sortQ l) : z ∈ l := by
  induction l with
  | nil => simp [sortQ] at h
  | cons a t ih =>
    rcases mem_of_insertSorted a z (sortQ t) h with rfl | h2
    · exact List.mem_cons_self _ _
    · exact List.mem_cons_of_mem _ (ih h2)

theorem getD_nonneg (l : List ℚ) (h : ∀ x ∈ l, 0 ≤ x) : ∀ i, 0 ≤ l.getD i 0 := by
  induction l with
  | nil => intro i; simp
  | cons a t ih =>
    intro i
    cases i with
    | zero => simpa using h a (List.mem_cons_self a t)
    | succ n => simpa using ih (fun x hx => h x (List.mem_cons_of_mem a hx)) n

theorem median_nonneg (l : List ℚ) (h : ∀ x ∈ l, 0 ≤ x) : 0 ≤ median l := by
  have hs : ∀ x ∈ sortQ l, 0 ≤ x := fun x hx => h x (mem_of_sortQ x l hx)
  simp only [median]
  by_cases hp : l.length % 2 = 1
  · rw [if_pos hp]
    exact getD_nonneg _ hs _
  · rw [if_neg hp]
    have h1 := getD_nonneg _ hs (l.length / 2 - 1)
    have h2 := getD_nonneg _ hs (l.length / 2)
    exact div_nonneg (by linarith) (by norm_num)

theorem mad_nonneg (l : List ℚ) : 0 ≤ mad l := by
  refine median_nonneg _ (fun x hx => ?_)
  obtain ⟨y, _, rfl⟩ := List.mem_map.mp hx
  exact abs_nonneg _

/-- C8: window_analyzer fails with a descriptive error whenever fewer
than two windows (troughs) are available, never producing a value at
all in that case; with sufficient data it returns exactly the scaled
median absolute deviation of the per-window troughs, and any returned
value is non-negative (no NaN exists over the rationals). -/
theorem window_analyzer_spec (size : ℕ) (ic : List ℚ) :
    ((troughs size ic).length < 2 →
      window_analyzer size ic =
        Except.error ("window analyzer requires at least 2 windows with troughs")) ∧
    (2 ≤ (troughs size ic).length →
      window_analyzer size ic = Except.ok (madScale * mad (troughs size ic))) ∧
    (∀ q : ℚ, window_analyzer size ic = Except.ok q → 0 ≤ q) ∧
    (∀ q : ℚ, window_analyzer size ic = Except.ok q → 2 ≤ (troughs size ic).length) := by
  refine ⟨?_, ?_, ?_, ?_⟩
  · intro h
    simp only [window_analyzer]
    rw [if_pos h]
  · intro h
    simp only [window_analyzer]
    rw [if_neg (by omega)]
  · intro q hq
    simp only [window_analyzer] at hq
    by_cases hl : (troughs size ic).length < 2
    · rw [if_pos hl] at hq
      cases hq
    · rw [if_neg hl] at hq
      have hq2 : madScale * mad (troughs size ic) = q := by
        simpa using hq
      rw [← hq2]
      exact mul_nonneg (by norm_num [madScale]) (mad_nonneg _)
  · intro q hq
    simp only [window_analyzer] at hq
    by_cases hl : (troughs size ic).length < 2
    · rw [if_pos hl] at hq
      cases hq
    · omega

/-- C8 witness: the noise threshold on a concrete six-point
chromatogram split into three windows of two scans. -/
theorem window_analyzer_spec_witness :
    ((troughs 2 [5, 3, 8, 2, 9, 1]).length < 2 →
      window_analyzer 2 [5, 3, 8, 2, 9, 1] =
        Except.error ("window analyzer requires at least 2 windows with troughs")) ∧
    (2 ≤ (troughs 2 [5, 3, 8, 2, 9, 1]).length →
      window_analyzer 2 [5, 3, 8, 2, 9, 1] =
        Except.ok (madScale * mad (troughs 2 [5, 3, 8, 2, 9, 1]))) ∧
    (∀ q : ℚ, window_analyzer 2 [5, 3, 8, 2, 9, 1] = Except.ok q → 0 ≤ q) ∧
    (∀ q : ℚ, window_analyzer 2 [5, 3, 8, 2, 9, 1] = Except.ok q →
      2 ≤ (troughs 2 [5, 3, 8, 2, 9, 1]).length) :=
  window_analyzer_spec 2 [5, 3, 8, 2, 9, 1]

theorem bestBy_mem {α κ : Type} [LinearOrder κ] (f : α → κ) (l : List α) :
    ∀ x, bestBy f x l ∈ x :: l := by
  induction l with
  | nil =>
    intro x
    rw [bestBy]
    exact List.mem_cons_self _ _
  | cons y t ih =>
    intro x
    rw [bestBy]
    rcases List.mem_cons.mp (ih (if f x < f y then y else x)) with h | h
    · rw [h]
      by_cases hxy : f x < f y
      · rw [if_pos hxy]
        exact List.mem_cons_of_mem _ (List.mem_cons_self _ _)
      · rw [if_neg hxy]
        exact List.mem_cons_self _ _
    · exact List.mem_cons_of_mem _ (List.mem_cons_of_mem _ h)

theorem le_bestBy {α κ : Type} [LinearOrder κ] (f : α → κ) (l : List α) :
    ∀ x, ∀ z ∈ x :: l, f z ≤ f (bestBy f x l) := by
  induction l with
  | nil =>
    intro x z hz
    rw [List.mem_singleton] at hz
    subst hz
    rw [bestBy]
  | cons y t ih =>
    intro x z hz
    rw [bestBy]
    have hax : f x ≤ f (if f x < f y then y else x) := by
      by_cases hxy : f x < f y
      · rw [if_pos hxy]
        exact le_of_lt hxy
      · rw [if_neg hxy]
    have hay : f y ≤ f (if f x < f y then y else x) := by
      by_cases hxy : f x < f y
      · rw [if_pos hxy]
      · rw [if_neg hxy]
        exact le_of_not_lt hxy
    have hbest := ih (if f x < f y then y else x) _ (List.mem_cons_self _ _)
    rcases List.mem_cons.mp hz with rfl | hz2
    · exact hax.trans hbest
    · rcases List.mem_cons.mp hz2 with rfl | hz3
      · exact hay.trans hbest
      · exact ih _ z (List.mem_cons_of_mem _ hz3)

/-- C9: common_ion returns exactly one selected mass per aligned column
in column order (same length as the alignment); for every column with
candidates, the selection is a candidate mass present (with non-null
area) in the greatest number of the column's non-gap peaks, ties broken
by the greatest average area across those peaks. -/
theorem common_ion_spec (algn : List Column) :
    (common_ion algn).length = algn.length ∧
    common_ion algn = algn.map bestIon ∧
    (∀ col ∈ algn, candMasses col ≠ [] →
      bestIon col ∈ candMasses col ∧
      ∀ m ∈ candMasses col,
        countFor col m ≤ countFor col (bestIon col) ∧
        (countFor col m = countFor col (bestIon col) →
          avgFor col m ≤ avgFor col (bestIon col))) := by
  refine ⟨List.length_map _ _, rfl, ?_⟩
  intro col _ hne
  rcases hcand : candMasses col with _ | ⟨x, l⟩
  · exact absurd hcand hne
  · have hbi : bestIon col = bestBy (ionKey col) x l := by
      unfold bestIon
      rw [hcand]
    constructor
    · rw [hbi]
      exact bestBy_mem (ionKey col) l x
    · intro m hm
      have hle := le_bestBy (ionKey col) l x m hm
      rw [← hbi] at hle
      rw [ionKey, ionKey, Prod.Lex.le_iff] at hle
      dsimp only at hle
      rcases hle with h | ⟨h1, h2⟩
      · exact ⟨le_of_lt h, fun he => absurd he (ne_of_lt h)⟩
      · exact ⟨le_of_eq h1, fun _ => h2⟩

/-- C9 witness: the common-ion selection on a concrete two-column
alignment of three experiments with per-ion areas set. -/
theorem common_ion_spec_witness :
    (common_ion
        [[some ((mkPeak 10 [] false).set_ion_areas [(73, 100), (85, 40)]),
            some ((mkPeak 11 [] false).set_ion_areas [(85, 30)]), none],
          [some ((mkPeak 12 [] false).set_ion_areas [(90, 10)]), none, none]]).length =
      [[some ((mkPeak 10 [] false).set_ion_areas [(73, 100), (85, 40)]),
          some ((mkPeak 11 [] false).set_ion_areas [(85, 30)]), none],
        [some ((mkPeak 12 [] false).set_ion_areas [(90, 10)]), none, none]].length ∧
    common_ion
        [[some ((mkPeak 10 [] false).set_ion_areas [(73, 100), (85, 40)]),
            some ((mkPeak 11 [] false).set_ion_areas [(85, 30)]), none],
          [some ((mkPeak 12 [] false).set_ion_areas [(90, 10)]), none, none]] =
      [[some ((mkPeak 10 [] false).set_ion_areas [(73, 100), (85, 40)]),
          some ((mkPeak 11 [] false).set_ion_areas [(85, 30)]), none],
        [some ((mkPeak 12 [] false).set_ion_areas [(90, 10)]), none, none]].map bestIon ∧
    (∀ col ∈
        [[some ((mkPeak 10 [] false).set_ion_areas [(73, 100), (85, 40)]),
            some ((mkPeak 11 [] false).set_ion_areas [(85, 30)]), none],
          [some ((mkPeak 12 [] false).set_ion_areas [(90, 10)]), none, none]],
      candMasses col ≠ [] →
      bestIon col ∈ candMasses col ∧
      ∀ m ∈ candMasses col,
        countFor col m ≤ countFor col (bestIon col) ∧
        (countFor col m = countFor col (bestIon col) →
          avgFor col m ≤ avgFor col (bestIon col))) :=
  common_ion_spec
    [[some ((mkPeak 10 [] false).set_ion_areas [(73, 100), (85, 40)]),
        some ((mkPeak 11 [] false).set_ion_areas [(85, 30)]), none],
      [some ((mkPeak 12 [] false).set_ion_areas [(90, 10)]), none, none]]

theorem pairViolate_cons (edge acc r m : ℚ) (t : List (ℚ × ℚ)) (i : ℕ) :
    pairViolate edge acc ((r, m) :: t) (i + 1) ↔ pairViolate m (acc + r) t i := by
  cases i with
  | zero =>
    rw [pairViolate, pairViolate]
    rw [if_neg (by omega : ¬ (0 : ℕ) + 1 = 0), if_pos (rfl : (0 : ℕ) = 0)]
    simp only [List.getD_cons_succ, Nat.add_sub_cancel, List.getD_cons_zero,
      List.take_succ_cons, List.take_zero, List.map_cons, List.map_nil, List.sum_cons,
      List.sum_nil, add_zero]
  | succ n =>
    rw [pairViolate, pairViolate]
    rw [if_neg (by omega : ¬ n + 1 + 1 = 0), if_neg (by omega : ¬ n + 1 = 0)]
    simp only [List.getD_cons_succ, Nat.add_sub_cancel, List.take_succ_cons,
      List.map_cons, List.sum_cons]
    rw [← add_assoc]

theorem walk_char (l : List (ℚ × ℚ)) : ∀ edge acc : ℚ,
    walkAux edge acc l = acc + ((l.take (stopLen edge acc l)).map Prod.fst).sum ∧
    (∀ j, j < stopLen edge acc l → ¬ pairViolate edge acc l j) ∧
    (stopLen edge acc l < l.length → pairViolate edge acc l (stopLen edge acc l)) := by
  induction l with
  | nil =>
    intro edge acc
    rw [walkAux, stopLen]
    exact ⟨by simp, fun j hj => absurd hj (Nat.not_lt_zero j),
      fun h => absurd h (lt_irrefl 0)⟩
  | cons pm t ih =>
    obtain ⟨r, m⟩ := pm
    intro edge acc
    by_cases hc : 200 * m < acc ∨ edge < m
    · rw [walkAux, stopLen, if_pos hc, if_pos hc]
      refine ⟨by simp, fun j hj => absurd hj (Nat.not_lt_zero j), fun _ => ?_⟩
      show pairViolate edge acc ((r, m) :: t) 0
      simp only [pairViolate, List.getD_cons_zero, List.take_zero, List.map_nil,
        List.sum_nil, add_zero, if_pos rfl]
      exact hc
    · rw [walkAux, stopLen, if_neg hc, if_neg hc]
      obtain ⟨ih1, ih2, ih3⟩ := ih m (acc + r)
      refine ⟨?_, ?_, ?_⟩
      · rw [ih1, List.take_succ_cons]
        simp [add_assoc]
      · intro j hj
        cases j with
        | zero =>
          intro hv
          apply hc
          simpa only [pairViolate, List.getD_cons_zero, List.take_zero, List.map_nil,
            List.sum_nil, add_zero, if_pos rfl] using hv
        | succ n =>
          rw [pairViolate_cons]
          exact ih2 n (by omega)
      · intro hlen
        rw [pairViolate_cons]
        refine ih3 ?_
        simp only [List.length_cons] at hlen
        omega

theorem getD_map_range2 (f : ℕ → ℚ × ℚ) :
    ∀ (n s j : ℕ), j < n → ((List.range' s n).map f).getD j (0, 0) = f (s + j) := by
  intro n
  induction n with
  | zero => intro s j h; exact absurd h (Nat.not_lt_zero j)
  | succ k ih =>
    intro s j h
    rw [List.range'_succ, List.map_cons]
    cases j with
    | zero => simp
    | succ i =>
      rw [List.getD_cons_succ, ih (s + 1) i (by omega)]
      congr 1
      omega

theorem halfPairs_getD (d : List ℚ) (j : ℕ) (h : j + 1 < d.length) :
    (halfPairs d).getD j (0, 0) = (d.getD (j + 1) 0, medAt d (j + 1)) := by
  rw [halfPairs, getD_map_range2 _ (d.length - 1) 1 j (by omega)]
  have h1 : 1 + j = j + 1 := by omega
  rw [h1]

/-- C7: the per-ion area estimate walks outward from the apex in both
time directions, the apex counted once; each direction accumulates raw
intensities exactly until the first step whose boundary value would add
less than 0.5 percent of the accumulated area or exceeds the current
edge value; and the boundary value tested at each step is the median of
the three consecutive samples centred there, not the single raw
sample. -/
theorem peak_area_stop_rule (col : List ℚ) (apex : ℕ) :
    ion_area col apex =
      half_area (leftList col apex) + half_area (rightList col apex) - col.getD apex 0 ∧
    halfSpec (leftList col apex) ∧
    halfSpec (rightList col apex) ∧
    (∀ d : List ℚ, ∀ j, j + 1 < d.length →
      (halfPairs d).getD j (0, 0) = (d.getD (j + 1) 0, medAt d (j + 1))) := by
  refine ⟨rfl, ?_, ?_, fun d j h => halfPairs_getD d j h⟩
  · obtain ⟨h1, h2, h3⟩ := walk_char (halfPairs (leftList col apex))
      ((leftList col apex).getD 0 0) ((leftList col apex).getD 0 0)
    exact ⟨h1, h2, h3⟩
  · obtain ⟨h1, h2, h3⟩ := walk_char (halfPairs (rightList col apex))
      ((rightList col apex).getD 0 0) ((rightList col apex).getD 0 0)
    exact ⟨h1, h2, h3⟩

/-- C7 witness: the stopping rule evaluated on a concrete chromatogram
with its apex at scan 2. -/
theorem peak_area_stop_rule_witness :
    ion_area [0, 2, 10, 4, 1, 0, 5] 2 =
      half_area (leftList [0, 2, 10, 4, 1, 0, 5] 2) +
        half_area (rightList [0, 2, 10, 4, 1, 0, 5] 2) -
        List.getD [0, 2, 10, 4, 1, 0, 5] 2 0 ∧
    halfSpec (leftList [0, 2, 10, 4, 1, 0, 5] 2) ∧
    halfSpec (rightList [0, 2, 10, 4, 1, 0, 5] 2) ∧
    (∀ d : List ℚ, ∀ j, j + 1 < d.length →
      (halfPairs d).getD j (0, 0) = (d.getD (j + 1) 0, medAt d (j + 1))) :=
  peak_area_stop_rule [0, 2, 10, 4, 1, 0, 5] 2

theorem getD_mem_of_lt (l : List ℚ) : ∀ i, i < l.length → l.getD i 0 ∈ l := by
  induction l with
  | nil => intro i h; simp at h
  | cons a t ih =>
    intro i h
    cases i with
    | zero => simp
    | succ n =>
      rw [List.getD_cons_succ]
      exact List.mem_cons_of_mem a (ih n (by simpa using h))

theorem pairwise_getD_lt (l : List ℚ) (hl : l.Pairwise (· < ·)) :
    ∀ i j, i < j → j < l.length → l.getD i 0 < l.getD j 0 := by
  induction l with
  | nil => intro i j _ hj; simp at hj
  | cons a t ih =>
    intro i j hij hj
    cases j with
    | zero => omega
    | succ n =>
      have hn : n < t.length := by simpa using hj
      cases i with
      | zero =>
        rw [List.getD_cons_zero, List.getD_cons_succ]
        exact (List.pairwise_cons.mp hl).1 _ (getD_mem_of_lt t n hn)
      | succ p =>
        rw [List.getD_cons_succ, List.getD_cons_succ]
        exact ih (List.pairwise_cons.mp hl).2 p n (by omega) hn

theorem bestBy_earliest {κ : Type} [LinearOrder κ] (f : ℕ → κ) (l : List ℕ) :
    ∀ x, (x :: l).Pairwise (· < ·) →
      ∀ z ∈ x :: l, f z = f (bestBy f x l) → bestBy f x l ≤ z := by
  induction l with
  | nil =>
    intro x _ z hz _
    rw [List.mem_singleton] at hz
    subst hz
    rw [bestBy]
  | cons y t ih =>
    intro x hpw z hz heq
    rw [bestBy] at heq ⊢
    have hxy : x < y := (List.pairwise_cons.mp hpw).1 y (List.mem_cons_self y t)
    have hxt : ∀ w ∈ t, x < w := fun w hw =>
      (List.pairwise_cons.mp hpw).1 w (List.mem_cons_of_mem y hw)
    have hyt : (y :: t).Pairwise (· < ·) := (List.pairwise_cons.mp hpw).2
    by_cases hc : f x < f y
    · rw [if_pos hc] at heq ⊢
      rcases List.mem_cons.mp hz with rfl | hz2
      · have hyb := le_bestBy f t y y (List.mem_cons_self y t)
        exact absurd heq (ne_of_lt (lt_of_lt_of_le hc hyb))
      · exact ih y hyt z hz2 heq
    · rw [if_neg hc] at heq ⊢
      have hpw2 : (x :: t).Pairwise (· < ·) :=
        List.pairwise_cons.mpr ⟨hxt, (List.pairwise_cons.mp hyt).2⟩
      rcases List.mem_cons.mp hz with rfl | hz2
      · exact ih z hpw2 z (List.mem_cons_self z t) heq
      · rcases List.mem_cons.mp hz2 with rfl | hz3
        · have hxb := le_bestBy f t x x (List.mem_cons_self x t)
          have hyx : f z ≤ f x := le_of_not_lt hc
          have hxb2 : f x = f (bestBy f x t) := le_antisymm hxb (heq ▸ hyx)
          exact (ih x hpw2 x (List.mem_cons_self x t) hxb2).trans (le_of_lt hxy)
        · exact ih x hpw2 z (List.mem_cons_of_mem x hz3) heq

theorem groupBlocks_props (scans : ℕ) :
    ∀ (n : ℕ) (l : List ℕ), l.length ≤ n → l.Pairwise (· < ·) →
      (∀ blk ∈ groupBlocks scans l,
        blk ≠ [] ∧ (∀ x ∈ blk, x ∈ l) ∧ blk.Pairwise (· < ·)) ∧
      (groupBlocks scans l).Pairwise (fun b c => ∀ x ∈ b, ∀ y ∈ c, x < y) := by
  intro n
  induction n with
  | zero =>
    intro l hlen _
    have hl : l = [] := List.length_eq_zero.mp (by omega)
    subst hl
    rw [groupBlocks]
    exact ⟨fun blk h => absurd h (List.not_mem_nil blk), List.Pairwise.nil⟩
  | succ k ih =>
    intro l hlen hpw
    cases l with
    | nil =>
      rw [groupBlocks]
      exact ⟨fun blk h => absurd h (List.not_mem_nil blk), List.Pairwise.nil⟩
    | cons c rest =>
      rw [groupBlocks]
      have hrest : rest.Pairwise (· < ·) := (List.pairwise_cons.mp hpw).2
      have hcr : ∀ x ∈ rest, c < x := (List.pairwise_cons.mp hpw).1
      have happ :
          rest.takeWhile (fun x => decide (x < c + scans)) ++
            rest.dropWhile (fun x => decide (x < c + scans)) = rest :=
        List.takeWhile_append_dropWhile (fun x => decide (x < c + scans)) rest
      have hra :
          (rest.takeWhile (fun x => decide (x < c + scans)) ++
            rest.dropWhile (fun x => decide (x < c + scans))).Pairwise (· < ·) := by
        rw [happ]
        exact hrest
      obtain ⟨htw, hdw, hcross⟩ := List.pairwise_append.mp hra
      have hmemtw : ∀ x ∈ rest.takeWhile (fun x => decide (x < c + scans)), x ∈ rest :=
        fun x hx => by
          rw [← happ]
          exact List.mem_append.mpr (Or.inl hx)
      have hmemdw : ∀ x ∈ rest.dropWhile (fun x => decide (x < c + scans)), x ∈ rest :=
        fun x hx => by
          rw [← happ]
          exact List.mem_append.mpr (Or.inr hx)
      have hlen2 : (rest.dropWhile (fun x => decide (x < c + scans))).length ≤ k := by
        have h2 := (List.dropWhile_sublist (fun x => decide (x < c + scans))
          (l := rest)).length_le
        simp only [List.length_cons] at hlen
        omega
      obtain ⟨ihA, ihB⟩ := ih (rest.dropWhile (fun x => decide (x < c + scans))) hlen2 hdw
      constructor
      · intro blk hblk
        rcases List.mem_cons.mp hblk with rfl | hblk2
        · refine ⟨List.cons_ne_nil c _, ?_, ?_⟩
          · intro x hx
            rcases List.mem_cons.mp hx with rfl | hx2
            · exact List.mem_cons_self _ _
            · exact List.mem_cons_of_mem _ (hmemtw x hx2)
          · exact List.pairwise_cons.mpr ⟨fun b hb => hcr b (hmemtw b hb), htw⟩
        · obtain ⟨h1, h2, h3⟩ := ihA blk hblk2
          exact ⟨h1, fun x hx => List.mem_cons_of_mem _ (hmemdw x (h2 x hx)), h3⟩
      · refine List.pairwise_cons.mpr ⟨?_, ihB⟩
        intro b2 hb2 x hx y hy
        have hy2 : y ∈ rest.dropWhile (fun x => decide (x < c + scans)) :=
          (ihA b2 hb2).2.1 y hy
        rcases List.mem_cons.mp hx with rfl | hx2
        · exact hcr y (hmemdw y hy2)
        · exact hcross x hx2 y hy2

theorem candidateScans_sorted (im : IntensityMatrix) (points : ℕ) :
    (candidateScans im points).Pairwise (· < ·) :=
  List.Pairwise.sublist (List.filter_sublist _) (List.pairwise_lt_range _)

theorem candidateScans_lt (im : IntensityMatrix) (points : ℕ) :
    ∀ r ∈ candidateScans im points, r < im.matrix.length := fun _ hr =>
  List.mem_range.mp (List.mem_of_mem_filter hr)

theorem mkBlockPeak_rt (im : IntensityMatrix) (points : ℕ) (blk : List ℕ) :
    (mkBlockPeak im points blk).rt = im.time_list.getD (blockApex im points blk) 0 := rfl

/-- C6: the detector groups the candidate apexing scans into
neighbourhoods of up to the given number of scan indices; every
neighbourhood is non-empty and its canonical apex is one of its
candidate scans, has the greatest summed (total-ion) intensity among
them with ties broken toward the earliest scan, and receives all the
neighbourhood's apexing ions merged into one spectrum; the canonical
apexes are strictly increasing, so for a strictly increasing time list
the emitted peaks are ordered by ascending retention time. -/
theorem billerBiemann_combination (im : IntensityMatrix) (points scans : ℕ)
    (hlen : im.matrix.length ≤ im.time_list.length)
    (htimes : im.time_list.Pairwise (· < ·)) :
    BillerBiemann im points scans =
      (groupBlocks scans (candidateScans im points)).map (mkBlockPeak im points) ∧
    (∀ blk ∈ groupBlocks scans (candidateScans im points),
      blk ≠ [] ∧
      blockApex im points blk ∈ blk ∧
      (∀ r ∈ blk, sumIntensity im points r ≤ sumIntensity im points (blockApex im points blk)) ∧
      (∀ r ∈ blk,
        sumIntensity im points r = sumIntensity im points (blockApex im points blk) →
          blockApex im points blk ≤ r) ∧
      mkBlockPeak im points blk =
        mkPeak (im.time_list.getD (blockApex im points blk) 0)
          ((blk.map (candSpectrum im points)).flatten) false) ∧
    ((groupBlocks scans (candidateScans im points)).map (blockApex im points)).Pairwise
      (· < ·) ∧
    ((BillerBiemann im points scans).map Peak.rt).Pairwise (· < ·) := by
  obtain ⟨hblocks, hbw⟩ := groupBlocks_props scans (candidateScans im points).length
    (candidateScans im points) le_rfl (candidateScans_sorted im points)
  have hapexmem : ∀ blk ∈ groupBlocks scans (candidateScans im points),
      blockApex im points blk ∈ blk := by
    intro blk hblk
    obtain ⟨hne, _, _⟩ := hblocks blk hblk
    cases blk with
    | nil => exact absurd rfl hne
    | cons x l => exact bestBy_mem (sumIntensity im points) l x
  refine ⟨rfl, ?_, ?_, ?_⟩
  · intro blk hblk
    obtain ⟨hne, hsub, hpw⟩ := hblocks blk hblk
    cases blk with
    | nil => exact absurd rfl hne
    | cons x l =>
      refine ⟨List.cons_ne_nil x l, bestBy_mem (sumIntensity im points) l x, ?_, ?_, rfl⟩
      · intro r hr
        exact le_bestBy (sumIntensity im points) l x r hr
      · intro r hr heq
        exact bestBy_earliest (sumIntensity im points) l x hpw r hr heq
  · rw [List.pairwise_map]
    refine hbw.imp_of_mem ?_
    intro b c hb hc hR
    exact hR (blockApex im points b) (hapexmem b hb) (blockApex im points c) (hapexmem c hc)
  · show ((groupBlocks scans (candidateScans im points)).map
      (mkBlockPeak im points)).map Peak.rt |>.Pairwise (· < ·)
    rw [List.map_map, List.pairwise_map]
    refine hbw.imp_of_mem ?_
    intro b c hb hc hR
    have hab := hapexmem b hb
    have hac := hapexmem c hc
    have hlt : blockApex im points b < blockApex im points c :=
      hR (blockApex im points b) hab (blockApex im points c) hac
    have hcb : blockApex im points c < im.matrix.length :=
      candidateScans_lt im points _ ((hblocks c hc).2.1 _ hac)
    show (Peak.rt ∘ mkBlockPeak im points) b < (Peak.rt ∘ mkBlockPeak im points) c
    simp only [Function.comp, mkBlockPeak_rt]
    exact pairwise_getD_lt im.time_list htimes _ _ hlt (lt_of_lt_of_le hcb hlen)

/-- C6 witness: the detector on the concrete 6-scan, 2-ion matrix with
points = 3 and scans = 2. -/
theorem billerBiemann_combination_witness :
    imEx.matrix.length ≤ imEx.time_list.length ∧
    imEx.time_list.Pairwise (· < ·) ∧
    (BillerBiemann imEx 3 2 =
      (groupBlocks 2 (candidateScans imEx 3)).map (mkBlockPeak imEx 3) ∧
    (∀ blk ∈ groupBlocks 2 (candidateScans imEx 3),
      blk ≠ [] ∧
      blockApex imEx 3 blk ∈ blk ∧
      (∀ r ∈ blk, sumIntensity imEx 3 r ≤ sumIntensity imEx 3 (blockApex imEx 3 blk)) ∧
      (∀ r ∈ blk,
        sumIntensity imEx 3 r = sumIntensity imEx 3 (blockApex imEx 3 blk) →
          blockApex imEx 3 blk ≤ r) ∧
      mkBlockPeak imEx 3 blk =
        mkPeak (imEx.time_list.getD (blockApex imEx 3 blk) 0)
          ((blk.map (candSpectrum imEx 3)).flatten) false) ∧
    ((groupBlocks 2 (candidateScans imEx 3)).map (blockApex imEx 3)).Pairwise (· < ·) ∧
    ((BillerBiemann imEx 3 2).map Peak.rt).Pairwise (· < ·)) :=
  ⟨of_decide_eq_true (by with_unfolding_all rfl),
    of_decide_eq_true (by with_unfolding_all rfl),
    billerBiemann_combination imEx 3 2
      (of_decide_eq_true (by with_unfolding_all rfl))
      (of_decide_eq_true (by with_unfolding_all rfl))⟩

end PyMS
